import Mathlib

/-!
Verification of the migemo-everything core (paged result cache, highlight
parser, text layout engine, size formatting) against its specification.

The definitions below are a shallow embedding of `src/main.rs`:

* the paged result cache (`ensure_data_available`, `load_page`,
  `perform_search`) acts on an explicit `CacheState`; the external search
  provider (the Everything SDK searcher) is a function parameter, and each
  cache operation additionally returns the number of provider queries it
  issued;
* the highlight parser `parse_highlight_text` is the character loop of the
  source function of the same name;
* the layout engine (`max_fit_chars`, `effective_max_chars`,
  `draw_segments`, `layout`) is the segment-walk of `handle_custom_draw`,
  with GDI text measurement abstracted as a cumulative-width table `cw`
  (the `char_widths` array filled by `GetTextExtentExPointW`) and the
  rectangle normalised to `[0, budget)`;
* `format_with_commas`, `format_size` mirror the formatting utilities;
  `u64` arithmetic that can overflow carries an explicit `% 2 ^ 64`.
-/

/-- One search-result record (`FileResult` in the source). Sizes and
timestamps are `u64` in the source; claims that depend on overflow carry
explicit bounds. -/
structure FileResult where
  name : String
  path : String
  size : Nat
  modified_date : Nat
  highlighted_name : String
  highlighted_path : String
  is_folder : Bool
deriving DecidableEq

/-- A provider response: a page of records plus the total match count
(the Everything SDK's `query_results` with `total()`). -/
structure QueryResult where
  records : List FileResult
  total : Nat
deriving DecidableEq

/-- The external search provider: term, regex flag, offset, max count.
The source builds the same request in `perform_search` and `load_page`. -/
abbrev Provider := String → Bool → Nat → Nat → QueryResult

/-- The cache-relevant fields of `AppState`. -/
structure CacheState where
  regex_enabled : Bool
  migemo_enabled : Bool
  search_results : List FileResult
  total_results : Nat
  current_search_term : String
  page_size : Nat
  current_page_offset : Nat
deriving DecidableEq

/-- `load_page(state, offset)`: queries the provider for
`(current_search_term, offset, page_size)` and replaces the resident page.
The second component counts provider queries (1 here, 0 on the empty-term
early return). -/
def load_page (p : Provider) (s : CacheState) (offset : Nat) : CacheState × Nat :=
  if s.current_search_term = "" then (s, 0)
  else
    ({ s with
        current_page_offset := offset,
        search_results :=
          (p s.current_search_term (s.regex_enabled || s.migemo_enabled)
            offset s.page_size).records },
     1)

/-- `ensure_data_available(state, item_index)`: page-aligned hit test, with
`load_page` on a miss. -/
def ensure_data_available (p : Provider) (s : CacheState) (i : Nat) : CacheState × Nat :=
  if s.current_search_term = "" then (s, 0)
  else
    let page_start := i / s.page_size * s.page_size
    if s.current_page_offset = page_start ∧
        i - page_start < s.search_results.length then
      (s, 0)
    else load_page p s page_start

/-- The lookup every caller performs after `ensure_data_available`:
`results.get(item_index - current_page_offset)`. Returns the new state, the
record found (if any), and the number of provider queries issued. -/
def ensure (p : Provider) (s : CacheState) (i : Nat) :
    CacheState × Option FileResult × Nat :=
  let r := ensure_data_available p s i
  (r.1, r.1.search_results.get? (i - r.1.current_page_offset), r.2)

/-- The query-switch invalidation inside `perform_search` (lines 917-921):
on a term change the resident records are cleared and the offset reset. -/
def set_query (s : CacheState) (t : String) : CacheState :=
  if s.current_search_term ≠ t then
    { s with
        search_results := [],
        current_search_term := t,
        current_page_offset := 0 }
  else s

/-- The term actually searched: the migemo translation of the input when
migemo mode is on (`migemo_query(..).unwrap_or(search_term)`), else the
input itself. The dictionary is abstracted as `mig`. -/
def final_term (mig : String → Option String) (migemo_enabled : Bool) (t : String) : String :=
  if migemo_enabled then (mig t).getD t else t

/-- `perform_search`: empty input clears everything; otherwise the term is
translated, a changed term invalidates the cache, and the provider is
queried at offset 0 with max 100 for the fresh first page and total. -/
def perform_search (p : Provider) (mig : String → Option String)
    (s : CacheState) (search_term : String) : CacheState :=
  if search_term = "" then
    { s with
        search_results := [],
        total_results := 0,
        current_search_term := "",
        current_page_offset := 0 }
  else
    let ft := final_term mig s.migemo_enabled search_term
    let s1 := set_query s ft
    let qr := p ft (s.regex_enabled || s.migemo_enabled) 0 100
    { s1 with
        total_results := qr.total,
        current_page_offset := 0,
        search_results := qr.records }

/-- A sequence of `ensure` calls (state threading only). -/
def run_ensures (p : Provider) (s : CacheState) (ops : List Nat) : CacheState :=
  ops.foldl (fun st j => (ensure p st j).1) s

/-- Provenance: the record occurs in some provider response for term `t`
with flag `flag`. -/
def from_term (p : Provider) (flag : Bool) (t : String) (r : FileResult) : Prop :=
  ∃ off mx, r ∈ (p t flag off mx).records

/-- Invariant: the cache's term and flags are fixed and every resident
record comes from a provider response for that term. -/
def cache_from (p : Provider) (flag : Bool) (t : String) (st : CacheState) : Prop :=
  st.current_search_term = t ∧
  (st.regex_enabled || st.migemo_enabled) = flag ∧
  ∀ r ∈ st.search_results, from_term p flag t r

/-- The character loop of `parse_highlight_text`: state is the plain text
accumulated so far, the recorded ranges, `highlight_start` and
`in_highlight`. Positions use the plain-character count, matching
`plain_text.chars().count()`. -/
def parse_loop : List Char → List Char → List (Nat × Nat) → Nat → Bool →
    List Char × List (Nat × Nat)
  | [], plain, ranges, _, _ => (plain, ranges)
  | c :: rest, plain, ranges, hs, inH =>
    if c = '*' then
      if inH then parse_loop rest plain (ranges ++ [(hs, plain.length)]) hs false
      else parse_loop rest plain ranges plain.length true
    else parse_loop rest (plain ++ [c]) ranges hs inH

/-- `parse_highlight_text`: strips `*` toggles and records closed runs. -/
def parse_highlight_text (s : String) : String × List (Nat × Nat) :=
  let pr := parse_loop s.data [] [] 0 false
  (String.mk pr.1, pr.2)

/-- Position (in stripped, code-point coordinates) of each `*` occurrence:
the count of plain characters emitted before it. Reference characterisation
of the parser's coordinate system, from the spec's words. -/
def star_positions : List Char → List Nat
  | [] => []
  | c :: rest =>
    if c = '*' then 0 :: star_positions rest
    else (star_positions rest).map (· + 1)

/-- Pair consecutive delimiter positions; an unpaired final position (an
unterminated open run) is dropped. -/
def pair_up : List Nat → List (Nat × Nat)
  | a :: b :: rest => (a, b) :: pair_up rest
  | _ => []

/-- A marked string assembled from alternating unhighlighted gaps and
starred highlighted runs, closed by a final gap. -/
def build_marked : List (List Char × List Char) → List Char → List Char
  | [], lastGap => lastGap
  | gh :: rest, lastGap => gh.1 ++ '*' :: (gh.2 ++ '*' :: build_marked rest lastGap)

/-- The plain text of `build_marked`: the same pieces without delimiters. -/
def build_plain : List (List Char × List Char) → List Char → List Char
  | [], lastGap => lastGap
  | gh :: rest, lastGap => gh.1 ++ (gh.2 ++ build_plain rest lastGap)

/-- The intended ranges of `build_marked`, accumulated left to right. -/
def build_ranges : List (List Char × List Char) → Nat → List (Nat × Nat)
  | [], _ => []
  | gh :: rest, off =>
    (off + gh.1.length, off + gh.1.length + gh.2.length) ::
      build_ranges rest (off + gh.1.length + gh.2.length)

/-- Delimiter positions of `build_marked`, accumulated left to right. -/
def star_pos_list : List (List Char × List Char) → Nat → List Nat
  | [], _ => []
  | gh :: rest, off =>
    (off + gh.1.length) :: (off + gh.1.length + gh.2.length) ::
      star_pos_list rest (off + gh.1.length + gh.2.length)

/-- `format_with_commas`, list level: leading partial group of `len % 3`
digits, a comma when more digits follow, then 3-digit chunks joined by
commas (the source's enumerate-and-push loop). -/
def chunks3 : List Char → List (List Char)
  | [] => []
  | [a] => [[a]]
  | [a, b] => [[a, b]]
  | a :: b :: c :: rest => [a, b, c] :: chunks3 rest

/-- Join chunks with a comma after every chunk except the last, as the
source's `if i < (len - first) / 3 - 1` does. -/
def join_commas : List (List Char) → List Char
  | [] => []
  | c :: rest => if rest.isEmpty then c else c ++ ',' :: join_commas rest

/-- Body of `format_with_commas` on the digit characters. -/
def fwc_list (bytes : List Char) : List Char :=
  let len := bytes.length
  let first := len % 3
  (if 0 < first then bytes.take first ++ (if first < len then [','] else []) else [])
    ++ join_commas (chunks3 (bytes.drop first))

/-- `format_with_commas(n)`. The source works on the ASCII bytes of
`n.to_string()`; digits are ASCII so characters coincide. -/
def format_with_commas (n : Nat) : String :=
  String.mk (fwc_list (toString n).data)

/-- `format_size(bytes)`: empty for 0, else ceiling-divide to KB and group.
The `u64` addition `bytes + 1023` wraps in the source, hence `% 2 ^ 64`. -/
def format_size (bytes : Nat) : String :=
  if bytes = 0 then ""
  else format_with_commas ((bytes + 1023) % 2 ^ 64 / 1024) ++ " KB"

/-- The size column of `handle_get_disp_info` (sub-item 2):
`format_size(result.size)`, with no test of `is_folder`. -/
def size_cell (r : FileResult) : String := format_size r.size

/-- Reference grouping, from the spec's words: commas every three digits
counting from the right. Defined on the reversed digit list. -/
def rgroup : List Char → List Char
  | a :: b :: c :: d :: rest => a :: b :: c :: ',' :: rgroup (d :: rest)
  | l => l

/-- Reference thousands grouping of a digit string. -/
def group_thousands (l : List Char) : List Char := (rgroup l.reverse).reverse

/-- `highlight_ranges.iter().any(|(start, end)| pos >= *start && pos < *end)`. -/
def is_highlighted (ranges : List (Nat × Nat)) (pos : Nat) : Bool :=
  ranges.any fun r => decide (r.1 ≤ pos ∧ pos < r.2)

/-- The `nFit` output of `GetTextExtentExPointW` on a cumulative-width
table: the longest prefix whose extents stay within the budget. -/
def fit_count : List Int → Int → Nat
  | [], _ => 0
  | w :: rest, budget => if w ≤ budget then fit_count rest budget + 1 else 0

/-- `max_fit_chars`: initialised to the full length, replaced by the
measured fit count when the text is non-empty. -/
def max_fit_chars (chars : List Char) (cw : List Int) (budget : Int) : Nat :=
  if 0 < chars.length then fit_count cw budget else chars.length

/-- `is_truncated = chars.len() > max_fit_chars`. -/
def is_truncated (chars : List Char) (cw : List Int) (budget : Int) : Prop :=
  max_fit_chars chars cw budget < chars.length

instance (chars : List Char) (cw : List Int) (budget : Int) :
    Decidable (is_truncated chars cw budget) :=
  inferInstanceAs (Decidable (_ < _))

/-- `effective_max_chars`: on truncation, refit against the budget left of
the ellipsis (when positive), capped by `max_fit_chars`. -/
def effective_max_chars (chars : List Char) (cw : List Int) (budget ew : Int) : Nat :=
  if is_truncated chars cw budget then
    if 0 < budget - ew then
      min (fit_count cw (budget - ew)) (max_fit_chars chars cw budget)
    else 0
  else max_fit_chars chars cw budget

/-- Cumulative width of the first `n` characters: 0, or `char_widths[n-1]`.
The source writes this same expression for `start_x`. -/
def cum_width (cw : List Int) (n : Nat) : Int :=
  if n = 0 then 0 else cw.getD (n - 1) 0

/-- Number of iterations of the inner same-state extension loop starting
at position `e`: it advances while in bounds, at most `effective`, and the
highlight state matches `h`. -/
def run_len (chars : List Char) (ranges : List (Nat × Nat)) (eff : Nat) (h : Bool)
    (e : Nat) : Nat :=
  if e < chars.length ∧ e ≤ eff then
    if is_highlighted ranges e = h then run_len chars ranges eff h (e + 1) + 1
    else 0
  else 0
termination_by chars.length - e

/-- `end_pos` for the segment starting at `pos`: the extension loop result
clamped by `effective_max_chars` (`std::cmp::min(end_pos, effective)`). -/
def seg_end (chars : List Char) (ranges : List (Nat × Nat)) (eff : Nat) (pos : Nat) : Nat :=
  min (pos + 1 + run_len chars ranges eff (is_highlighted ranges pos) (pos + 1)) eff

/-- The source's guarded `end_x` lookup:
`if end_pos > 0 && end_pos <= char_widths.len() { char_widths[end_pos-1] } else { 0 }`. -/
def end_x_of (cw : List Int) (ep : Nat) : Int :=
  if 0 < ep ∧ ep ≤ cw.length then cw.getD (ep - 1) 0 else 0

/-- One emitted draw segment: its text, highlight state, and starting x. -/
structure Segment where
  text : List Char
  highlighted : Bool
  startX : Int
deriving DecidableEq

/-- The segment walk of `handle_custom_draw`: from `pos` with draw cursor
`x`, extend a same-state run, stop on a non-positive clipped width or a
cursor at the right edge, else emit and continue at `end_pos`. Returns the
segments, `last_drawn_pos` and the final cursor. (The source's trailing
`if x >= rect.right break` is subsumed by the same test at the next
iteration's head.) -/
def draw_segments (chars : List Char) (ranges : List (Nat × Nat)) (cw : List Int)
    (budget : Int) (eff : Nat) (pos : Nat) (x : Int) (last : Nat) :
    List Segment × Nat × Int :=
  if _hc : pos < chars.length ∧ pos < eff then
    let ep := seg_end chars ranges eff pos
    let sw := end_x_of cw ep - cum_width cw pos
    let actual := min sw (budget - x)
    if actual ≤ 0 ∨ budget ≤ x then ([], last, x)
    else
      let r := draw_segments chars ranges cw budget eff ep (x + actual) ep
      (⟨(chars.drop pos).take (ep - pos), is_highlighted ranges pos, x⟩ :: r.1, r.2)
  else ([], last, x)
termination_by eff - pos
decreasing_by
  simp only [seg_end]
  omega

/-- The layout engine's output. -/
structure LayoutResult where
  segments : List Segment
  truncated : Bool
  ellipsisX : Option Int
deriving DecidableEq

/-- The full layout: fit counts, the segment walk from `(0, x = 0)`, and
the ellipsis decision
`is_truncated && last_drawn_pos < chars.len() && x + ellipsis_width <= rect.right`. -/
def layout (chars : List Char) (ranges : List (Nat × Nat)) (cw : List Int)
    (budget ew : Int) : LayoutResult :=
  let eff := effective_max_chars chars cw budget ew
  let r := draw_segments chars ranges cw budget eff 0 0 0
  { segments := r.1,
    truncated := decide (is_truncated chars cw budget),
    ellipsisX :=
      if is_truncated chars cw budget ∧ r.2.1 < chars.length ∧ r.2.2 + ew ≤ budget
      then some r.2.2 else none }

/-- A provider with no matches at all (e.g. a term with zero results). -/
def empty_provider : Provider := fun _ _ _ _ => ⟨[], 0⟩

/-- A cache state with an active term and no resident records. -/
def empty_cache : CacheState :=
  { regex_enabled := false, migemo_enabled := false, search_results := [],
    total_results := 0, current_search_term := "a", page_size := 100,
    current_page_offset := 0 }

/-- A sample record returned for term "b" by `two_term_provider`. -/
def rec_b : FileResult :=
  { name := "b.txt", path := "p", size := 1, modified_date := 0,
    highlighted_name := "", highlighted_path := "", is_folder := false }

/-- A sample record returned for every other term by `two_term_provider`. -/
def rec_a : FileResult :=
  { name := "a.txt", path := "p", size := 2, modified_date := 0,
    highlighted_name := "", highlighted_path := "", is_folder := false }

/-- A provider distinguishing the terms "a" and "b". -/
def two_term_provider : Provider :=
  fun t _ _ _ => if t = "b" then ⟨[rec_b], 1⟩ else ⟨[rec_a], 1⟩

/-- A cache state whose resident page was fetched for term "a". -/
def term_a_cache : CacheState :=
  { regex_enabled := false, migemo_enabled := false, search_results := [rec_a],
    total_results := 1, current_search_term := "a", page_size := 100,
    current_page_offset := 0 }

/-- A folder record with a non-zero reported size. -/
def folder_rec : FileResult :=
  { name := "d", path := "p", size := 1024, modified_date := 0,
    highlighted_name := "", highlighted_path := "", is_folder := true }

/-- The cumulative-width table of the truncation example: ten characters of
uniform width 10. -/
def c4_widths : List Int := [10, 20, 30, 40, 50, 60, 70, 80, 90, 100]

theorem load_page_cache_from (p : Provider) (flag : Bool) (t : String)
    (st : CacheState) (off : Nat) (h : cache_from p flag t st) :
    cache_from p flag t (load_page p st off).1 := by
  unfold load_page
  split
  · exact h
  · refine ⟨h.1, h.2.1, fun r hr => ?_⟩
    refine ⟨off, st.page_size, ?_⟩
    rw [← h.1, ← h.2.1]
    exact hr

theorem ensure_cache_from (p : Provider) (flag : Bool) (t : String)
    (st : CacheState) (i : Nat) (h : cache_from p flag t st) :
    cache_from p flag t (ensure p st i).1 := by
  unfold ensure ensure_data_available
  dsimp only
  split
  · exact h
  · split
    · exact h
    · exact load_page_cache_from p flag t st _ h

theorem run_ensures_cache_from (p : Provider) (flag : Bool) (t : String)
    (ops : List Nat) :
    ∀ st : CacheState, cache_from p flag t st →
      cache_from p flag t (run_ensures p st ops) := by
  induction ops with
  | nil => intro st h; exact h
  | cons j rest ih =>
    intro st h
    exact ih _ (ensure_cache_from p flag t st j h)

theorem perform_search_cache_from (p : Provider) (mig : String → Option String)
    (s : CacheState) (t : String) (ht : t ≠ "") :
    cache_from p (s.regex_enabled || s.migemo_enabled)
      (final_term mig s.migemo_enabled t) (perform_search p mig s t) := by
  unfold perform_search set_query
  rw [if_neg ht]
  dsimp only
  split
  · exact ⟨rfl, rfl, fun r hr => ⟨0, 100, hr⟩⟩
  · rename_i hne
    have hterm : s.current_search_term = final_term mig s.migemo_enabled t := by
      by_contra hne2; exact hne hne2
    exact ⟨hterm, rfl, fun r hr => ⟨0, 100, hr⟩⟩

theorem ensure_record_mem (p : Provider) (st : CacheState) (i : Nat)
    (r : FileResult) (h : (ensure p st i).2.1 = some r) :
    r ∈ ((ensure p st i).1).search_results := by
  unfold ensure at h ⊢
  dsimp only at h ⊢
  exact List.get?_mem h

theorem ensure_hit (p : Provider) (s : CacheState) (i : Nat)
    (hterm : s.current_search_term ≠ "")
    (h : s.current_page_offset = i / s.page_size * s.page_size ∧
      i - i / s.page_size * s.page_size < s.search_results.length) :
    ensure p s i =
      (s, s.search_results.get? (i - i / s.page_size * s.page_size), 0) := by
  unfold ensure ensure_data_available
  rw [if_neg hterm]
  dsimp only
  rw [if_pos h, h.1]

theorem ensure_miss (p : Provider) (s : CacheState) (i : Nat)
    (hterm : s.current_search_term ≠ "")
    (h : ¬(s.current_page_offset = i / s.page_size * s.page_size ∧
      i - i / s.page_size * s.page_size < s.search_results.length)) :
    ensure p s i =
      ({ s with
          current_page_offset := i / s.page_size * s.page_size,
          search_results :=
            (p s.current_search_term (s.regex_enabled || s.migemo_enabled)
              (i / s.page_size * s.page_size) s.page_size).records },
       (p s.current_search_term (s.regex_enabled || s.migemo_enabled)
          (i / s.page_size * s.page_size) s.page_size).records.get?
         (i - i / s.page_size * s.page_size),
       1) := by
  unfold ensure ensure_data_available load_page
  rw [if_neg hterm]
  dsimp only
  rw [if_neg h, if_neg hterm]

/-- Claim C1: with a non-empty active term, `ensure(i)` computes the
page-aligned `pageStart`; on `pageStart = residentOffset` with the local
index inside the resident records it returns the cached record with no
provider call; otherwise it queries `(activeQueryTerm, pageStart, pageSize)`,
installs the response at offset `pageStart`, and returns the record at the
new local index (none when the response is too short). -/
theorem C1_ensure_paging (p : Provider) (s : CacheState) (i : Nat)
    (hterm : s.current_search_term ≠ "") (_hps : 0 < s.page_size) :
    (s.current_page_offset = i / s.page_size * s.page_size ∧
        i - i / s.page_size * s.page_size < s.search_results.length →
      ensure p s i =
        (s, s.search_results.get? (i - i / s.page_size * s.page_size), 0)) ∧
    (¬(s.current_page_offset = i / s.page_size * s.page_size ∧
        i - i / s.page_size * s.page_size < s.search_results.length) →
      ensure p s i =
        ({ s with
            current_page_offset := i / s.page_size * s.page_size,
            search_results :=
              (p s.current_search_term (s.regex_enabled || s.migemo_enabled)
                (i / s.page_size * s.page_size) s.page_size).records },
         (p s.current_search_term (s.regex_enabled || s.migemo_enabled)
            (i / s.page_size * s.page_size) s.page_size).records.get?
           (i - i / s.page_size * s.page_size),
         1)) :=
  ⟨ensure_hit p s i hterm, ensure_miss p s i hterm⟩

theorem C1_ensure_paging_witness :
    (term_a_cache.current_search_term ≠ "" ∧ 0 < term_a_cache.page_size) ∧
    ensure two_term_provider term_a_cache 0 = (term_a_cache, some rec_a, 0) :=
  ⟨⟨by decide, by decide⟩,
   by
     have h :=
       (C1_ensure_paging two_term_provider term_a_cache 0 (by decide)
         (by decide)).1 (by decide)
     rw [h]; decide⟩

/-- Claim C10: after `ensure_data_available(state, i)` with a non-empty
active term, the resident page offset is at most `i`, so the callers'
local-index subtraction `i - current_page_offset` cannot underflow. -/
theorem C10_offset_bound (p : Provider) (s : CacheState) (i : Nat)
    (hterm : s.current_search_term ≠ "") :
    ((ensure_data_available p s i).1).current_page_offset ≤ i := by
  unfold ensure_data_available load_page
  rw [if_neg hterm]
  dsimp only
  split
  · rename_i h
    rw [h.1]
    exact Nat.div_mul_le_self i s.page_size
  · exact Nat.div_mul_le_self i s.page_size

theorem C10_offset_bound_witness :
    empty_cache.current_search_term ≠ "" ∧
    ((ensure_data_available empty_provider empty_cache 5).1).current_page_offset ≤ 5 :=
  ⟨by decide, C10_offset_bound empty_provider empty_cache 5 (by decide)⟩

/-- Claim C8 (amended): two successive `ensure(i)` calls with no
intervening query change return the same result, and issue at most one
provider call in total when a record is returned; when the lookup yields
none (the index lies beyond the records the provider returned), each
invocation issues its own provider call, two in total. -/
theorem C8_ensure_idempotent (p : Provider) (s : CacheState) (i : Nat)
    (hterm : s.current_search_term ≠ "") :
    (ensure p s i).2.1 = (ensure p (ensure p s i).1 i).2.1 ∧
    ((ensure p s i).2.1.isSome →
      (ensure p s i).2.2 + (ensure p (ensure p s i).1 i).2.2 ≤ 1) ∧
    ((ensure p s i).2.1 = none →
      (ensure p s i).2.2 + (ensure p (ensure p s i).1 i).2.2 = 2) := by
  by_cases hhit : s.current_page_offset = i / s.page_size * s.page_size ∧
      i - i / s.page_size * s.page_size < s.search_results.length
  · have h1 := ensure_hit p s i hterm hhit
    rw [h1]
    dsimp only
    rw [h1]
    dsimp only
    refine ⟨rfl, fun _ => by omega, fun hn => ?_⟩
    exact absurd (List.get?_eq_none.mp hn) (by omega)
  · have h1 := ensure_miss p s i hterm hhit
    rw [h1]
    dsimp only
    by_cases h2 : i - i / s.page_size * s.page_size <
        ((p s.current_search_term (s.regex_enabled || s.migemo_enabled)
          (i / s.page_size * s.page_size) s.page_size).records).length
    · have h3 := ensure_hit p
        ({ s with
            current_page_offset := i / s.page_size * s.page_size,
            search_results :=
              (p s.current_search_term (s.regex_enabled || s.migemo_enabled)
                (i / s.page_size * s.page_size) s.page_size).records })
        i hterm ⟨rfl, h2⟩
      rw [h3]
      dsimp only
      refine ⟨rfl, fun _ => by omega, fun hn => ?_⟩
      exact absurd (List.get?_eq_none.mp hn) (by omega)
    · have h3 := ensure_miss p
        ({ s with
            current_page_offset := i / s.page_size * s.page_size,
            search_results :=
              (p s.current_search_term (s.regex_enabled || s.migemo_enabled)
                (i / s.page_size * s.page_size) s.page_size).records })
        i hterm (fun hcon => h2 hcon.2)
      rw [h3]
      dsimp only
      have hn : ((p s.current_search_term (s.regex_enabled || s.migemo_enabled)
          (i / s.page_size * s.page_size) s.page_size).records).get?
            (i - i / s.page_size * s.page_size) = none :=
        List.get?_eq_none.mpr (by omega)
      refine ⟨rfl, fun hs => ?_, fun _ => rfl⟩
      rw [hn] at hs
      exact absurd hs (by decide)

theorem C8_ensure_idempotent_witness :
    term_a_cache.current_search_term ≠ "" ∧
    (ensure two_term_provider term_a_cache 0).2.1 =
      (ensure two_term_provider (ensure two_term_provider term_a_cache 0).1 0).2.1 :=
  ⟨by decide, (C8_ensure_idempotent two_term_provider term_a_cache 0 (by decide)).1⟩

/-- Claim C8 counterexample: with an active term and a provider returning
an empty page, two successive `ensure(0)` calls both query the provider —
two provider calls, not at most one as the claim states. -/
theorem C8_counterexample :
    ¬((ensure empty_provider empty_cache 0).2.2 +
        (ensure empty_provider (ensure empty_provider empty_cache 0).1 0).2.2 ≤ 1) := by
  decide

/-- Claim C2: a term change clears the resident records and resets the
offset before any lookup, and every record returned by any later `ensure`
sequence comes from a provider response for the new term — never from the
page resident under the previous term. -/
theorem C2_query_invalidation (p : Provider) (mig : String → Option String)
    (s : CacheState) (t : String) (ht : t ≠ "")
    (hch : final_term mig s.migemo_enabled t ≠ s.current_search_term) :
    ((set_query s (final_term mig s.migemo_enabled t)).search_results = [] ∧
      (set_query s (final_term mig s.migemo_enabled t)).current_page_offset = 0) ∧
    ∀ (ops : List Nat) (i : Nat) (r : FileResult),
      (ensure p (run_ensures p (perform_search p mig s t) ops) i).2.1 = some r →
      from_term p (s.regex_enabled || s.migemo_enabled)
        (final_term mig s.migemo_enabled t) r := by
  constructor
  · unfold set_query
    rw [if_pos (Ne.symm hch)]
    exact ⟨rfl, rfl⟩
  · intro ops i r hr
    have hinv := run_ensures_cache_from p (s.regex_enabled || s.migemo_enabled)
      (final_term mig s.migemo_enabled t) ops _
      (perform_search_cache_from p mig s t ht)
    have hinv2 := ensure_cache_from p (s.regex_enabled || s.migemo_enabled)
      (final_term mig s.migemo_enabled t) _ i hinv
    exact hinv2.2.2 r (ensure_record_mem p _ i r hr)

theorem C2_query_invalidation_witness :
    (("b" : String) ≠ "" ∧
      final_term (fun _ => none) term_a_cache.migemo_enabled "b" ≠
        term_a_cache.current_search_term) ∧
    from_term two_term_provider
      (term_a_cache.regex_enabled || term_a_cache.migemo_enabled)
      (final_term (fun _ => none) term_a_cache.migemo_enabled "b") rec_b :=
  ⟨⟨by decide, by decide⟩,
   (C2_query_invalidation two_term_provider (fun _ => none) term_a_cache "b"
      (by decide) (by decide)).2 [] 0 rec_b (by decide)⟩


theorem parse_loop_spec (l : List Char) :
    ∀ (plain : List Char) (ranges : List (Nat × Nat)) (hs : Nat) (inH : Bool),
      parse_loop l plain ranges hs inH =
        (plain ++ l.filter (fun c => c ≠ '*'),
         ranges ++ pair_up ((if inH then [hs] else []) ++
           (star_positions l).map (· + plain.length))) := by
  induction l with
  | nil =>
    intro plain ranges hs inH
    cases inH <;> simp [parse_loop, star_positions, pair_up]
  | cons c rest ih =>
    intro plain ranges hs inH
    by_cases hc : c = '*'
    · subst hc
      cases inH with
      | true =>
        have hstep : parse_loop ('*' :: rest) plain ranges hs true =
            parse_loop rest plain (ranges ++ [(hs, plain.length)]) hs false := by
          simp [parse_loop]
        rw [hstep, ih]
        simp [star_positions, pair_up]
      | false =>
        have hstep : parse_loop ('*' :: rest) plain ranges hs false =
            parse_loop rest plain ranges plain.length true := by
          simp [parse_loop]
        rw [hstep, ih]
        simp [star_positions, pair_up]
    · have hstep : parse_loop (c :: rest) plain ranges hs inH =
          parse_loop rest (plain ++ [c]) ranges hs inH := by
        simp [parse_loop, hc]
      rw [hstep, ih]
      have hmap : List.map (fun x => x + plain.length)
            (List.map (fun x => x + 1) (star_positions rest)) =
          List.map (fun x => x + (plain ++ [c]).length) (star_positions rest) := by
        rw [List.map_map]
        congr 1
        funext x
        simp only [Function.comp_apply, List.length_append, List.length_cons,
          List.length_nil]
        omega
      simp only [star_positions, if_neg hc, hmap, List.append_assoc,
        List.singleton_append]
      rw [List.filter_cons_of_pos (by simpa using hc)]

/-- Claim C5: the parser strips every `*`, records exactly the runs both
opened and closed by `*` occurrences as code-point ranges of the stripped
text (an unterminated final open run yields no range; the function is
total), and the worked example parses as specified. -/
theorem C5_highlight_parse (s : String) :
    (parse_highlight_text s).1.data = s.data.filter (fun c => c ≠ '*') ∧
    (parse_highlight_text s).2 = pair_up (star_positions s.data) ∧
    parse_highlight_text "*foo*bar*baz*" = ("foobarbaz", [(0, 3), (6, 9)]) := by
  refine ⟨?_, ?_, by decide⟩
  · simp [parse_highlight_text, parse_loop_spec]
  · simp [parse_highlight_text, parse_loop_spec]

theorem star_positions_sorted (l : List Char) : (star_positions l).Pairwise (· ≤ ·) := by
  induction l with
  | nil => simp [star_positions]
  | cons c rest ih =>
    by_cases hc : c = '*'
    · subst hc
      simp only [star_positions, if_pos rfl]
      exact List.pairwise_cons.mpr ⟨fun x _ => Nat.zero_le x, ih⟩
    · simp only [star_positions, if_neg hc]
      exact List.pairwise_map.mpr (ih.imp fun hab => Nat.add_le_add_right hab 1)

theorem star_positions_le (l : List Char) :
    ∀ x ∈ star_positions l, x ≤ (l.filter (fun c => c ≠ '*')).length := by
  induction l with
  | nil => simp [star_positions]
  | cons c rest ih =>
    by_cases hc : c = '*'
    · subst hc
      have hf : List.filter (fun c => c ≠ '*') ('*' :: rest) =
          List.filter (fun c => c ≠ '*') rest := by simp
      simp only [star_positions, if_pos rfl, hf]
      intro x hx
      rcases List.mem_cons.mp hx with h | h
      · subst h; exact Nat.zero_le _
      · exact ih x h
    · have hf : List.filter (fun c => c ≠ '*') (c :: rest) =
          c :: List.filter (fun c => c ≠ '*') rest := by simp [hc]
      simp only [star_positions, if_neg hc, hf]
      intro x hx
      rcases List.mem_map.mp hx with ⟨y, hy, rfl⟩
      have := ih y hy
      simp only [List.length_cons]
      omega

theorem pair_up_mem : ∀ (l : List Nat), ∀ r ∈ pair_up l, r.1 ∈ l ∧ r.2 ∈ l
  | [] => by simp [pair_up]
  | [a] => by simp [pair_up]
  | a :: b :: rest => by
    intro r hr
    simp only [pair_up, List.mem_cons] at hr
    rcases hr with h | h
    · subst h
      exact ⟨List.mem_cons_self a _, List.mem_cons_of_mem a (List.mem_cons_self b _)⟩
    · have hrec := pair_up_mem rest r h
      exact ⟨List.mem_cons_of_mem a (List.mem_cons_of_mem b hrec.1),
        List.mem_cons_of_mem a (List.mem_cons_of_mem b hrec.2)⟩

theorem pair_up_sorted : ∀ (l : List Nat), l.Pairwise (· ≤ ·) →
    ((pair_up l).Pairwise fun r r2 => r.2 ≤ r2.1) ∧ ∀ r ∈ pair_up l, r.1 ≤ r.2
  | [] => by simp [pair_up]
  | [a] => by simp [pair_up]
  | a :: b :: rest => by
    intro h
    have hab : a ≤ b := (List.pairwise_cons.mp h).1 b (List.mem_cons_self b _)
    have hb : ∀ x ∈ rest, b ≤ x :=
      (List.pairwise_cons.mp (List.pairwise_cons.mp h).2).1
    have hrest : rest.Pairwise (· ≤ ·) :=
      (List.pairwise_cons.mp (List.pairwise_cons.mp h).2).2
    have ih := pair_up_sorted rest hrest
    have hstep : pair_up (a :: b :: rest) = (a, b) :: pair_up rest := by
      simp [pair_up]
    constructor
    · rw [hstep]
      exact List.pairwise_cons.mpr
        ⟨fun r hr => hb r.1 (pair_up_mem rest r hr).1, ih.1⟩
    · rw [hstep]
      intro r hr
      rcases List.mem_cons.mp hr with h1 | h1
      · subst h1; exact hab
      · exact ih.2 r h1

/-- Claim C7 (amended): the parser's ranges are sorted and pairwise
non-overlapping, and every range satisfies start ≤ end ≤ len(plainText);
start < end fails for the degenerate zero-length run between two adjacent
delimiters, which yields a (k, k) range. -/
theorem C7_ranges_invariant (s : String) :
    (∀ r ∈ (parse_highlight_text s).2,
      r.1 ≤ r.2 ∧ r.2 ≤ (parse_highlight_text s).1.data.length) ∧
    ((parse_highlight_text s).2).Pairwise (fun r r2 => r.2 ≤ r2.1) := by
  have hchar : (parse_highlight_text s).2 = pair_up (star_positions s.data) := by
    simp [parse_highlight_text, parse_loop_spec]
  have hplain : (parse_highlight_text s).1.data =
      s.data.filter (fun c => c ≠ '*') := by
    simp [parse_highlight_text, parse_loop_spec]
  have hsorted := pair_up_sorted (star_positions s.data) (star_positions_sorted s.data)
  constructor
  · intro r hr
    rw [hchar] at hr
    refine ⟨hsorted.2 r hr, ?_⟩
    rw [hplain]
    exact star_positions_le s.data r.2 (pair_up_mem _ r hr).2
  · rw [hchar]
    exact hsorted.1

/-- Claim C7 counterexample: parsing "**" yields the degenerate range
(0, 0), so "every range satisfies start < end" is false. -/
theorem C7_counterexample :
    ¬(∀ r ∈ (parse_highlight_text "**").2, r.1 < r.2) := by
  decide

theorem sp_append_nostar (a : List Char) :
    ∀ b : List Char, (∀ c ∈ a, c ≠ '*') →
      star_positions (a ++ b) = (star_positions b).map (· + a.length) := by
  induction a with
  | nil => intro b _; simp
  | cons c a2 ih =>
    intro b h
    have hc : c ≠ '*' := h c (List.mem_cons_self c a2)
    have ih2 := ih b (fun x hx => h x (List.mem_cons_of_mem c hx))
    simp only [List.cons_append, star_positions, if_neg hc, List.append_eq, ih2,
      List.map_map]
    apply List.map_congr_left
    intro x _
    simp only [Function.comp_apply, List.length_cons]
    omega

theorem sp_nostar (a : List Char) (h : ∀ c ∈ a, c ≠ '*') : star_positions a = [] := by
  have := sp_append_nostar a [] h
  simpa using this

theorem star_pos_shift : ∀ (pieces : List (List Char × List Char)) (off : Nat),
    star_pos_list pieces off = (star_pos_list pieces 0).map (· + off)
  | [], off => by simp [star_pos_list]
  | gh :: rest, off => by
    have h1 := star_pos_shift rest (off + gh.1.length + gh.2.length)
    have h2 := star_pos_shift rest (gh.1.length + gh.2.length)
    simp only [star_pos_list, List.map_cons, h1, h2, List.map_map, Nat.zero_add]
    refine List.cons_eq_cons.mpr ⟨by omega, List.cons_eq_cons.mpr ⟨by omega, ?_⟩⟩
    apply List.map_congr_left
    intro x _
    simp only [Function.comp_apply]
    omega

theorem star_positions_build :
    ∀ (pieces : List (List Char × List Char)) (lastGap : List Char),
      (∀ gh ∈ pieces, (∀ c ∈ gh.1, c ≠ '*') ∧ (∀ c ∈ gh.2, c ≠ '*')) →
      (∀ c ∈ lastGap, c ≠ '*') →
      star_positions (build_marked pieces lastGap) = star_pos_list pieces 0
  | [], lastGap => by
    intro _ hl
    simp [build_marked, star_pos_list, sp_nostar lastGap hl]
  | gh :: rest, lastGap => by
    intro hp hl
    have hg := (hp gh (List.mem_cons_self gh rest)).1
    have hh := (hp gh (List.mem_cons_self gh rest)).2
    have hrest := star_positions_build rest lastGap
      (fun x hx => hp x (List.mem_cons_of_mem gh hx)) hl
    simp only [build_marked]
    rw [sp_append_nostar gh.1 _ hg]
    simp only [star_positions, if_pos rfl]
    rw [sp_append_nostar gh.2 _ hh]
    simp only [star_positions, if_pos rfl, hrest,
      star_pos_shift rest (gh.1.length + gh.2.length),
      star_pos_list, List.map_cons, List.map_map, Nat.zero_add]
    refine List.cons_eq_cons.mpr ⟨by beta_reduce; omega,
      List.cons_eq_cons.mpr ⟨by beta_reduce; omega, ?_⟩⟩
    rw [List.map_map]
    apply List.map_congr_left
    intro x _
    simp only [Function.comp_apply]
    omega

theorem pair_up_spl : ∀ (pieces : List (List Char × List Char)) (off : Nat),
    pair_up (star_pos_list pieces off) = build_ranges pieces off
  | [], off => by simp [star_pos_list, build_ranges, pair_up]
  | gh :: rest, off => by
    simp only [star_pos_list, build_ranges, pair_up]
    rw [pair_up_spl rest (off + gh.1.length + gh.2.length)]

theorem filter_build :
    ∀ (pieces : List (List Char × List Char)) (lastGap : List Char),
      (∀ gh ∈ pieces, (∀ c ∈ gh.1, c ≠ '*') ∧ (∀ c ∈ gh.2, c ≠ '*')) →
      (∀ c ∈ lastGap, c ≠ '*') →
      (build_marked pieces lastGap).filter (fun c => c ≠ '*') =
        build_plain pieces lastGap
  | [], lastGap => by
    intro _ hl
    simp only [build_marked, build_plain]
    exact List.filter_eq_self.mpr (fun a ha => by simpa using hl a ha)
  | gh :: rest, lastGap => by
    intro hp hl
    have hg := (hp gh (List.mem_cons_self gh rest)).1
    have hh := (hp gh (List.mem_cons_self gh rest)).2
    have ih := filter_build rest lastGap
      (fun x hx => hp x (List.mem_cons_of_mem gh hx)) hl
    have hstar : ∀ x : List Char,
        List.filter (fun c => c ≠ '*') ('*' :: x) =
          List.filter (fun c => c ≠ '*') x := fun x => by simp
    simp only [build_marked, build_plain, List.filter_append, hstar]
    rw [ih, List.filter_eq_self.mpr (fun a ha => by simpa using hg a ha),
      List.filter_eq_self.mpr (fun a ha => by simpa using hh a ha)]

/-- Claim C6: for gap/highlight pieces free of literal `*`, wrapping each
highlighted piece in a `*...*` pair and parsing the assembled string yields
exactly the concatenated original text and exactly the intended ranges. -/
theorem C6_round_trip (pieces : List (List Char × List Char)) (lastGap : List Char)
    (hp : ∀ gh ∈ pieces, (∀ c ∈ gh.1, c ≠ '*') ∧ (∀ c ∈ gh.2, c ≠ '*'))
    (hl : ∀ c ∈ lastGap, c ≠ '*') :
    parse_highlight_text (String.mk (build_marked pieces lastGap)) =
      (String.mk (build_plain pieces lastGap), build_ranges pieces 0) := by
  have h1 : (parse_highlight_text (String.mk (build_marked pieces lastGap))).1.data =
      (build_marked pieces lastGap).filter (fun c => c ≠ '*') := by
    simp [parse_highlight_text, parse_loop_spec]
  have h2 : (parse_highlight_text (String.mk (build_marked pieces lastGap))).2 =
      pair_up (star_positions (build_marked pieces lastGap)) := by
    simp [parse_highlight_text, parse_loop_spec]
  refine Prod.ext_iff.mpr ⟨String.ext ?_, ?_⟩
  · rw [h1, filter_build pieces lastGap hp hl]
  · rw [h2, star_positions_build pieces lastGap hp hl, pair_up_spl pieces 0]

theorem C6_round_trip_witness :
    ((∀ gh ∈ [((['a'], ['b', 'c']) : List Char × List Char)],
        (∀ c ∈ gh.1, c ≠ '*') ∧ (∀ c ∈ gh.2, c ≠ '*')) ∧
      (∀ c ∈ ['d'], c ≠ '*')) ∧
    parse_highlight_text (String.mk (build_marked [(['a'], ['b', 'c'])] ['d'])) =
      (String.mk (build_plain [(['a'], ['b', 'c'])] ['d']),
       build_ranges [(['a'], ['b', 'c'])] 0) :=
  ⟨⟨by decide, by decide⟩,
   C6_round_trip [(['a'], ['b', 'c'])] ['d'] (by decide) (by decide)⟩

theorem chunks3_append : ∀ (m s : List Char), m.length % 3 = 0 →
    chunks3 (m ++ s) = chunks3 m ++ chunks3 s
  | [], s => by intro _; simp [chunks3]
  | [a], s => by
    intro h
    simp only [List.length_cons, List.length_nil] at h
    omega
  | [a, b], s => by
    intro h
    simp only [List.length_cons, List.length_nil] at h
    omega
  | a :: b :: c :: rest, s => by
    intro h
    have h3 : rest.length % 3 = 0 := by
      simp only [List.length_cons] at h
      omega
    simp only [List.cons_append, chunks3, List.append_eq]
    rw [chunks3_append rest s h3]

theorem chunks3_ne_nil (l : List Char) (h : l ≠ []) : chunks3 l ≠ [] := by
  match l with
  | [] => exact absurd rfl h
  | [a] => simp [chunks3]
  | [a, b] => simp [chunks3]
  | a :: b :: c :: rest => simp [chunks3]

theorem join_commas_append (cs : List (List Char)) (d : List Char) (h : cs ≠ []) :
    join_commas (cs ++ [d]) = join_commas cs ++ ',' :: d := by
  induction cs with
  | nil => exact absurd rfl h
  | cons c cs2 ih =>
    cases cs2 with
    | nil => simp [join_commas]
    | cons c2 cs3 =>
      have ih2 := ih (by simp)
      simp only [List.cons_append, join_commas, List.isEmpty_cons, Bool.false_eq_true,
        if_false, List.isEmpty_eq_true, List.append_eq_nil, and_false] at ih2 ⊢
      rw [ih2]
      simp [List.append_assoc]

theorem group_append_three (init : List Char) (x y z : Char) (h : init ≠ []) :
    group_thousands (init ++ [x, y, z]) = group_thousands init ++ ',' :: [x, y, z] := by
  obtain ⟨d, rest, hrev⟩ : ∃ d rest, init.reverse = d :: rest := by
    cases hr : init.reverse with
    | nil =>
      exact absurd (by simpa using congrArg List.reverse hr) h
    | cons d rest => exact ⟨d, rest, rfl⟩
  unfold group_thousands
  rw [List.reverse_append, show ([x, y, z] : List Char).reverse = [z, y, x] from by simp,
    hrev]
  simp only [List.cons_append, List.nil_append]
  rw [show rgroup (z :: y :: x :: d :: rest) = z :: y :: x :: ',' :: rgroup (d :: rest)
      from by simp [rgroup]]
  simp [List.reverse_cons, List.append_assoc]

theorem fwc_append_three (init : List Char) (x y z : Char) (h : init ≠ []) :
    fwc_list (init ++ [x, y, z]) = fwc_list init ++ ',' :: [x, y, z] := by
  have hk : 0 < init.length := List.length_pos.mpr h
  have hlen : (init ++ [x, y, z]).length = init.length + 3 := by simp
  have hmod : (init.length + 3) % 3 = init.length % 3 := by omega
  have hmle : init.length % 3 ≤ init.length := Nat.mod_le _ _
  have htake : (init ++ [x, y, z]).take (init.length % 3) =
      init.take (init.length % 3) := List.take_append_of_le_length hmle
  have hdrop : (init ++ [x, y, z]).drop (init.length % 3) =
      init.drop (init.length % 3) ++ [x, y, z] := List.drop_append_of_le_length hmle
  have hdl : (init.drop (init.length % 3)).length % 3 = 0 := by
    simp only [List.length_drop]
    omega
  have hchunks : chunks3 ((init ++ [x, y, z]).drop (init.length % 3)) =
      chunks3 (init.drop (init.length % 3)) ++ [[x, y, z]] := by
    rw [hdrop, chunks3_append _ _ hdl]
    rfl
  unfold fwc_list
  simp only [hlen, hmod, htake, hchunks]
  by_cases h0 : 0 < init.length % 3
  · rw [if_pos h0, if_pos h0, if_pos (show init.length % 3 < init.length + 3 by omega)]
    by_cases hfl : init.length % 3 < init.length
    · rw [if_pos hfl]
      have hne : init.drop (init.length % 3) ≠ [] := by
        intro hnil
        have := congrArg List.length hnil
        simp only [List.length_drop, List.length_nil] at this
        omega
      rw [join_commas_append _ _ (chunks3_ne_nil _ hne)]
      simp [List.append_assoc]
    · rw [if_neg hfl]
      have hfeq : init.length % 3 = init.length := by omega
      have hdnil : init.drop (init.length % 3) = [] := by
        rw [hfeq]
        exact List.drop_length init
      rw [hdnil]
      simp only [chunks3, join_commas, List.nil_append, List.append_nil]
      rw [hfeq, List.take_length]
      simp [join_commas]
  · rw [if_neg h0, if_neg h0]
    have h0' : init.length % 3 = 0 := by omega
    have hne : init.drop (init.length % 3) ≠ [] := by
      rw [h0']
      simpa using h
    rw [join_commas_append _ _ (chunks3_ne_nil _ hne)]
    simp [List.append_assoc]

theorem fwc_eq_group : ∀ (n : Nat) (l : List Char), l.length ≤ n →
    fwc_list l = group_thousands l := by
  intro n
  induction n with
  | zero =>
    intro l hl
    have : l = [] := List.length_eq_zero.mp (Nat.le_zero.mp hl)
    subst this
    rfl
  | succ n ih =>
    intro l hl
    by_cases hsmall : l.length ≤ 3
    · rcases l with _ | ⟨a, _ | ⟨b, _ | ⟨c, _ | ⟨d, rest⟩⟩⟩⟩
      · rfl
      · simp [fwc_list, group_thousands, rgroup, chunks3, join_commas]
      · simp [fwc_list, group_thousands, rgroup, chunks3, join_commas]
      · simp [fwc_list, group_thousands, rgroup, chunks3, join_commas]
      · exfalso
        simp only [List.length_cons] at hsmall
        omega
    · push_neg at hsmall
      have hinit : l = l.take (l.length - 3) ++ l.drop (l.length - 3) :=
        (List.take_append_drop _ l).symm
      have hdl3 : (l.drop (l.length - 3)).length = 3 := by
        simp only [List.length_drop]
        omega
      obtain ⟨x, y, z, hxyz⟩ := List.length_eq_three.mp hdl3
      have hinitne : l.take (l.length - 3) ≠ [] := by
        intro hnil
        have := congrArg List.length hnil
        simp only [List.length_take, List.length_nil] at this
        omega
      have hlt : (l.take (l.length - 3)).length ≤ n := by
        simp only [List.length_take]
        omega
      calc fwc_list l
          = fwc_list (l.take (l.length - 3) ++ [x, y, z]) := by
            rw [← hxyz, ← hinit]
        _ = fwc_list (l.take (l.length - 3)) ++ ',' :: [x, y, z] :=
            fwc_append_three _ x y z hinitne
        _ = group_thousands (l.take (l.length - 3)) ++ ',' :: [x, y, z] := by
            rw [ih _ hlt]
        _ = group_thousands (l.take (l.length - 3) ++ [x, y, z]) :=
            (group_append_three _ x y z hinitne).symm
        _ = group_thousands l := by
            rw [← hxyz, ← hinit]

theorem format_with_commas_group (n : Nat) :
    format_with_commas n = String.mk (group_thousands (toString n).data) := by
  unfold format_with_commas
  rw [fwc_eq_group (toString n).data.length _ le_rfl]

/-- Claim C9 (amended): for a record whose `u64` size addition does not
wrap, the size cell is empty exactly when `size = 0` and otherwise shows
`ceil(size / 1024)` grouped in thousands with a " KB" suffix — regardless
of `isFolder`, which the rendering code never tests; folders show no size
only because the provider reports their size as 0. -/
theorem C9_size_format (r : FileResult) (hof : r.size + 1023 < 2 ^ 64) :
    (r.size = 0 → size_cell r = "") ∧
    (r.size ≠ 0 →
      size_cell r =
        String.mk (group_thousands (toString ((r.size + 1023) / 1024)).data) ++ " KB" ∧
      r.size ≤ 1024 * ((r.size + 1023) / 1024) ∧
      1024 * ((r.size + 1023) / 1024) < r.size + 1024) := by
  constructor
  · intro h0
    simp [size_cell, format_size, h0]
  · intro hne
    have hmod : (r.size + 1023) % 2 ^ 64 = r.size + 1023 := Nat.mod_eq_of_lt hof
    have hdm := Nat.div_add_mod (r.size + 1023) 1024
    have hlt : (r.size + 1023) % 1024 < 1024 := Nat.mod_lt _ (by omega)
    refine ⟨?_, by omega, by omega⟩
    unfold size_cell format_size
    rw [if_neg hne, hmod, format_with_commas_group]

theorem C9_size_format_witness :
    folder_rec.size + 1023 < 2 ^ 64 ∧ size_cell folder_rec = "1 KB" :=
  ⟨by decide,
   by
     have h := (C9_size_format folder_rec (by decide)).2 (by decide)
     rw [h.1]
     decide⟩

/-- Claim C9 counterexample: a folder record with a non-zero reported size
still renders a size cell — `handle_get_disp_info` formats sub-item 2 as
`format_size(result.size)` with no `is_folder` test, so "isFolder
suppresses size formatting" is false. -/
theorem C9_counterexample :
    folder_rec.is_folder = true ∧ size_cell folder_rec ≠ "" := by
  exact ⟨rfl, by decide⟩

theorem fit_le : ∀ (cw : List Int) (b : Int), fit_count cw b ≤ cw.length
  | [], _ => Nat.le_refl 0
  | w :: rest, b => by
    simp only [fit_count, List.length_cons]
    split
    · have := fit_le rest b
      omega
    · omega

theorem fit_spec : ∀ (cw : List Int) (b : Int) (n : Nat), n < fit_count cw b →
    cw.getD n 0 ≤ b
  | [], b, n => by simp [fit_count]
  | w :: rest, b, n => by
    simp only [fit_count]
    split
    · rename_i hw
      intro hn
      cases n with
      | zero => simpa using hw
      | succ m =>
        have := fit_spec rest b m (by omega)
        simpa using this
    · intro hn
      omega

theorem cum_le (cw : List Int)
    (hmono : ∀ n, n < cw.length → cum_width cw n < cum_width cw (n + 1)) :
    ∀ a b : Nat, a ≤ b → b ≤ cw.length → cum_width cw a ≤ cum_width cw b := by
  intro a b
  induction b with
  | zero =>
    intro hab _
    have : a = 0 := by omega
    subst this
    exact le_refl _
  | succ m ih =>
    intro hab hb
    by_cases heq : a = m + 1
    · subst heq
      exact le_refl _
    · have h1 := ih (by omega) (by omega)
      have h2 := hmono m (by omega)
      omega

theorem cum_lt (cw : List Int)
    (hmono : ∀ n, n < cw.length → cum_width cw n < cum_width cw (n + 1)) :
    ∀ a b : Nat, a < b → b ≤ cw.length → cum_width cw a < cum_width cw b := by
  intro a b hab hb
  have h1 := cum_le cw hmono a (b - 1) (by omega) (by omega)
  have h2 := hmono (b - 1) (by omega)
  have h3 : b - 1 + 1 = b := by omega
  rw [h3] at h2
  omega

theorem max_fit_le (chars : List Char) (cw : List Int) (budget : Int)
    (hlen : cw.length = chars.length) :
    max_fit_chars chars cw budget ≤ chars.length := by
  unfold max_fit_chars
  split
  · rw [← hlen]
    exact fit_le cw budget
  · exact le_refl _

theorem eff_le_max (chars : List Char) (cw : List Int) (budget ew : Int) :
    effective_max_chars chars cw budget ew ≤ max_fit_chars chars cw budget := by
  unfold effective_max_chars
  split
  · split
    · exact Nat.min_le_right _ _
    · exact Nat.zero_le _
  · exact le_refl _

theorem eff_le_len (chars : List Char) (cw : List Int) (budget ew : Int)
    (hlen : cw.length = chars.length) :
    effective_max_chars chars cw budget ew ≤ chars.length :=
  le_trans (eff_le_max chars cw budget ew) (max_fit_le chars cw budget hlen)

theorem eff_budget (chars : List Char) (cw : List Int) (budget ew : Int)
    (hlen : cw.length = chars.length)
    (hpos : 0 < effective_max_chars chars cw budget ew) :
    cum_width cw (effective_max_chars chars cw budget ew) ≤ budget := by
  have hle := eff_le_max chars cw budget ew
  have hml := max_fit_le chars cw budget hlen
  have hchars : 0 < chars.length := by omega
  have hmf : max_fit_chars chars cw budget = fit_count cw budget := by
    unfold max_fit_chars
    rw [if_pos hchars]
  have h1 : effective_max_chars chars cw budget ew - 1 < fit_count cw budget := by
    omega
  have h2 := fit_spec cw budget (effective_max_chars chars cw budget ew - 1) h1
  unfold cum_width
  rw [if_neg (by omega : ¬effective_max_chars chars cw budget ew = 0)]
  exact h2

theorem run_len_stop (chars : List Char) (ranges : List (Nat × Nat)) (eff : Nat)
    (h : Bool) (s : Nat) :
    s + run_len chars ranges eff h s < chars.length →
    s + run_len chars ranges eff h s ≤ eff →
    is_highlighted ranges (s + run_len chars ranges eff h s) = h → False := by
  rw [run_len]
  split
  · rename_i hc
    split
    · rename_i hstate
      intro p1 p2 p3
      have harith : s + (run_len chars ranges eff h (s + 1) + 1) =
          s + 1 + run_len chars ranges eff h (s + 1) := by omega
      rw [harith] at p1 p2 p3
      exact run_len_stop chars ranges eff h (s + 1) p1 p2 p3
    · rename_i hstate
      intro _ _ p3
      simp only [Nat.add_zero] at p3
      exact hstate p3
  · rename_i hc
    intro p1 p2 _
    simp only [Nat.add_zero] at p1 p2
    exact hc ⟨p1, p2⟩
termination_by chars.length - s

theorem draw_ne_nil (chars : List Char) (ranges : List (Nat × Nat)) (cw : List Int)
    (budget : Int) (eff pos : Nat) (x : Int) (last : Nat) :
    (draw_segments chars ranges cw budget eff pos x last).1 ≠ [] →
    pos < chars.length ∧ pos < eff := by
  intro hne
  by_contra hc
  apply hne
  rw [draw_segments, dif_neg hc]

theorem draw_spec (chars : List Char) (ranges : List (Nat × Nat)) (cw : List Int)
    (budget : Int)
    (hlen : cw.length = chars.length)
    (hmono : ∀ n, n < cw.length → cum_width cw n < cum_width cw (n + 1))
    (eff : Nat) (heffl : eff ≤ chars.length)
    (heffb : cum_width cw eff ≤ budget)
    (pos : Nat) (x : Int) (last : Nat) (hpos : pos ≤ eff)
    (hx : x = cum_width cw pos) :
    (((draw_segments chars ranges cw budget eff pos x last).1.map Segment.text).flatten =
      (chars.drop pos).take (eff - pos)) ∧
    List.Chain' (fun s1 s2 => s1.highlighted ≠ s2.highlighted)
      (draw_segments chars ranges cw budget eff pos x last).1 ∧
    (∀ sg, ((draw_segments chars ranges cw budget eff pos x last).1).head? = some sg →
      sg.highlighted = is_highlighted ranges pos) ∧
    (pos < eff →
      (draw_segments chars ranges cw budget eff pos x last).2.1 = eff ∧
      (draw_segments chars ranges cw budget eff pos x last).2.2 = cum_width cw eff) := by
  by_cases hc : pos < chars.length ∧ pos < eff
  · have hep_lt : pos < seg_end chars ranges eff pos := by
      unfold seg_end
      omega
    have hep_le : seg_end chars ranges eff pos ≤ eff := by
      unfold seg_end
      omega
    have hend_x : end_x_of cw (seg_end chars ranges eff pos) =
        cum_width cw (seg_end chars ranges eff pos) := by
      unfold end_x_of cum_width
      rw [if_pos ⟨by omega, by omega⟩, if_neg (by omega)]
    have hswpos : 0 < cum_width cw (seg_end chars ranges eff pos) - cum_width cw pos := by
      have := cum_lt cw hmono pos (seg_end chars ranges eff pos) hep_lt (by omega)
      omega
    have hcume : cum_width cw (seg_end chars ranges eff pos) ≤ cum_width cw eff :=
      cum_le cw hmono _ eff hep_le (by omega)
    have hxlt : x < budget := by
      have := cum_lt cw hmono pos eff hc.2 (by omega)
      omega
    have hminl : min (end_x_of cw (seg_end chars ranges eff pos) - cum_width cw pos)
        (budget - x) =
        end_x_of cw (seg_end chars ranges eff pos) - cum_width cw pos := by
      rw [hend_x]
      exact min_eq_left (by omega)
    have hbreak : ¬(min (end_x_of cw (seg_end chars ranges eff pos) - cum_width cw pos)
        (budget - x) ≤ 0 ∨ budget ≤ x) := by
      rw [hminl, hend_x]
      omega
    have hrec := draw_spec chars ranges cw budget hlen hmono eff heffl heffb
      (seg_end chars ranges eff pos)
      (x + min (end_x_of cw (seg_end chars ranges eff pos) - cum_width cw pos)
        (budget - x))
      (seg_end chars ranges eff pos) hep_le
      (by rw [hminl, hend_x]; omega)
    obtain ⟨hjoin, hchain, hhead, hlast⟩ := hrec
    rw [draw_segments, dif_pos hc]
    dsimp only
    refine ⟨?_, ?_, ?_, ?_⟩
    · have hd3 : List.drop (seg_end chars ranges eff pos - pos) (List.drop pos chars) =
          List.drop (seg_end chars ranges eff pos) chars := by
        rw [List.drop_drop]
        congr 1
        omega
      have hsplit : List.take (eff - pos) (List.drop pos chars) =
          List.take (seg_end chars ranges eff pos - pos) (List.drop pos chars) ++
            List.take (eff - seg_end chars ranges eff pos)
              (List.drop (seg_end chars ranges eff pos) chars) := by
        rw [← hd3, ← List.take_add]
        congr 1
        omega
      rw [if_neg hbreak]
      dsimp only
      rw [List.map_cons, List.flatten_cons, hjoin, hsplit]
    · rw [if_neg hbreak]
      dsimp only
      rw [List.chain'_cons']
      refine ⟨?_, hchain⟩
      intro sg2 hsg2
      have hne : (draw_segments chars ranges cw budget eff
          (seg_end chars ranges eff pos)
          (x + min (end_x_of cw (seg_end chars ranges eff pos) - cum_width cw pos)
            (budget - x))
          (seg_end chars ranges eff pos)).1 ≠ [] := by
        intro h0
        rw [h0] at hsg2
        simp at hsg2
      have hguard := draw_ne_nil chars ranges cw budget eff
        (seg_end chars ranges eff pos) _ _ hne
      have hh2 := hhead sg2 hsg2
      have hseg : seg_end chars ranges eff pos =
          pos + 1 + run_len chars ranges eff (is_highlighted ranges pos) (pos + 1) := by
        have h2 := hguard.2
        unfold seg_end at h2 ⊢
        omega
      intro heq
      apply run_len_stop chars ranges eff (is_highlighted ranges pos) (pos + 1)
      · rw [← hseg]
        exact hguard.1
      · rw [← hseg]
        omega
      · rw [← hseg, ← hh2, ← heq]
    · rw [if_neg hbreak]
      dsimp only
      intro sg hsg
      simp only [List.head?_cons, Option.some.injEq] at hsg
      rw [← hsg]
    · rw [if_neg hbreak]
      dsimp only
      intro _
      by_cases hlt2 : seg_end chars ranges eff pos < eff
      · exact hlast hlt2
      · have hep_eq : seg_end chars ranges eff pos = eff := by omega
        have hd2 : draw_segments chars ranges cw budget eff
            (seg_end chars ranges eff pos)
            (x + min (end_x_of cw (seg_end chars ranges eff pos) - cum_width cw pos)
              (budget - x))
            (seg_end chars ranges eff pos) =
            ([], seg_end chars ranges eff pos,
              x + min (end_x_of cw (seg_end chars ranges eff pos) - cum_width cw pos)
                (budget - x)) := by
          rw [draw_segments, dif_neg (fun hcon => absurd hcon.2 (by omega))]
        rw [hd2]
        dsimp only
        refine ⟨hep_eq, ?_⟩
        rw [hminl, hend_x, hep_eq]
        omega
  · have hd : draw_segments chars ranges cw budget eff pos x last = ([], last, x) := by
      rw [draw_segments, dif_neg hc]
    rw [hd]
    dsimp only
    have hnil : (chars.drop pos).take (eff - pos) = [] := by
      rcases not_and_or.mp hc with h1 | h1
      · rw [List.drop_eq_nil_of_le (by omega)]
        exact List.take_nil
      · rw [show eff - pos = 0 from by omega]
        exact List.take_zero _
    refine ⟨?_, List.chain'_nil, ?_, ?_⟩
    · rw [hnil]
      rfl
    · intro sg hsg
      simp at hsg
    · intro hlt
      exact absurd ⟨by omega, hlt⟩ hc
termination_by eff - pos
decreasing_by
  omega

/-- Claim C3: under a monotonically increasing cumulative width table (the
measure contract of the layout engine), concatenating the emitted segment
texts in order reproduces exactly the prefix of the plain text of length
`effective_max_chars` — no character duplicated or skipped — and
consecutive segments never share the same highlighted state. -/
theorem C3_layout_conservation (chars : List Char) (ranges : List (Nat × Nat))
    (cw : List Int) (budget ew : Int)
    (hlen : cw.length = chars.length)
    (hmono : ∀ n, n < cw.length → cum_width cw n < cum_width cw (n + 1)) :
    (((layout chars ranges cw budget ew).segments.map Segment.text).flatten =
      chars.take (effective_max_chars chars cw budget ew)) ∧
    List.Chain' (fun s1 s2 => s1.highlighted ≠ s2.highlighted)
      (layout chars ranges cw budget ew).segments := by
  by_cases hz : 0 < effective_max_chars chars cw budget ew
  · have hspec := draw_spec chars ranges cw budget hlen hmono
      (effective_max_chars chars cw budget ew)
      (eff_le_len chars cw budget ew hlen)
      (eff_budget chars cw budget ew hlen hz)
      0 0 0 (Nat.zero_le _) (by simp [cum_width])
    unfold layout
    dsimp only
    refine ⟨?_, hspec.2.1⟩
    have h1 := hspec.1
    simpa using h1
  · have heff0 : effective_max_chars chars cw budget ew = 0 := by omega
    unfold layout
    dsimp only
    have hd : draw_segments chars ranges cw budget
        (effective_max_chars chars cw budget ew) 0 0 0 = ([], 0, 0) := by
      rw [draw_segments, dif_neg (fun hcon => absurd hcon.2 (by omega))]
    rw [hd, heff0]
    exact ⟨by simp, List.chain'_nil⟩

theorem C3_layout_conservation_witness :
    (([10, 20] : List Int).length = "ab".data.length ∧
      ∀ n, n < ([10, 20] : List Int).length →
        cum_width [10, 20] n < cum_width [10, 20] (n + 1)) ∧
    (((layout "ab".data [(0, 1)] [10, 20] 100 5).segments.map Segment.text).flatten =
      "ab".data.take (effective_max_chars "ab".data [10, 20] 100 5)) ∧
    List.Chain' (fun s1 s2 => s1.highlighted ≠ s2.highlighted)
      (layout "ab".data [(0, 1)] [10, 20] 100 5).segments :=
  ⟨⟨by decide, by decide⟩,
   C3_layout_conservation "ab".data [(0, 1)] [10, 20] 100 5 (by decide) (by decide)⟩

/-- Claim C4: on "abcdefghij" with uniform width 10, budget 55 and ellipsis
width 20, the layout computes maxFitCount 5, is truncated, refits to
effectiveMaxCount 3, emits segments covering exactly "abc", and places the
ellipsis at x = 30. -/
theorem C4_truncation_example :
    max_fit_chars "abcdefghij".data c4_widths 55 = 5 ∧
    is_truncated "abcdefghij".data c4_widths 55 ∧
    effective_max_chars "abcdefghij".data c4_widths 55 20 = 3 ∧
    (layout "abcdefghij".data [] c4_widths 55 20).truncated = true ∧
    (((layout "abcdefghij".data [] c4_widths 55 20).segments.map
      Segment.text).flatten = "abc".data) ∧
    (layout "abcdefghij".data [] c4_widths 55 20).ellipsisX = some 30 := by
  have heff : effective_max_chars "abcdefghij".data c4_widths 55 20 = 3 := by decide
  have hspec := draw_spec "abcdefghij".data [] c4_widths 55 (by decide) (by decide)
    3 (by decide) (by decide) 0 0 0 (by decide) (by decide)
  refine ⟨by decide, by decide, heff, by decide, ?_, ?_⟩
  · unfold layout
    dsimp only
    rw [heff, hspec.1]
    decide
  · unfold layout
    dsimp only
    rw [heff]
    have hlx := hspec.2.2.2 (by decide)
    rw [hlx.1, hlx.2]
    decide
